import Mathlib

/-!
Verification of the fixed-window rate limiter from
`server/src/utils/monitoring.js` (`rateLimit`).

The JavaScript source (lines 710-738) is, per middleware invocation:

  const rateLimit = (windowMs = 15 * 60 * 1000, max = 100) => {
    const requests = new Map();
    return (req, res, next) => {
      const key = req.ip || req.connection.remoteAddress;
      const now = Date.now();
      if (!requests.has(key)) {
        requests.set(key, { count: 1, resetTime: now + windowMs });
        return next();                                 -- ADMIT
      }
      const requestData = requests.get(key);
      if (now > requestData.resetTime) {
        requests.set(key, { count: 1, resetTime: now + windowMs });
        return next();                                 -- ADMIT
      }
      if (requestData.count >= max) {
        return res.status(429).json(...);              -- REJECT
      }
      requestData.count++;
      next();                                          -- ADMIT
    };
  };

The shallow embedding below makes the mutable `requests` map explicit:
`check` takes the map and returns the ADMIT/REJECT decision together with
the updated map.  Timestamps are `Int` (JavaScript millisecond epoch
values), counts are `Nat`.
-/

/-- Per-key window counter: `{ count, resetTime }` in the source. -/
structure WindowCounter where
  count : Nat
  resetTime : Int
deriving DecidableEq, Repr

/-- The binary admission decision: `next()` vs the 429 response. -/
inductive Decision where
  | ADMIT
  | REJECT
deriving DecidableEq, Repr

/-- Configuration captured by the `rateLimit(windowMs, max)` closure. -/
structure RateLimiter where
  windowMs : Int
  max : Nat
deriving DecidableEq, Repr

/-- The mutable `requests` map, as an explicit total lookup function. -/
abbrev RequestMap := String → Option WindowCounter

/-- `new Map()`: no key has a counter. -/
def emptyRequests : RequestMap := fun _ => none

/-- `requests.set(key, c)`: update the map at one key. -/
def setKey (m : RequestMap) (key : String) (c : WindowCounter) : RequestMap :=
  fun k => if k = key then some c else m k

/-- One invocation of the middleware body for `key` at time `now`:
the decision and the updated `requests` map.  Mirrors the source's four
branches in order: create, reset (`now > resetTime`), reject
(`count >= max`), increment. -/
def check (cfg : RateLimiter) (m : RequestMap) (key : String) (now : Int) :
    Decision × RequestMap :=
  match m key with
  | none => (Decision.ADMIT, setKey m key ⟨1, now + cfg.windowMs⟩)
  | some requestData =>
    if requestData.resetTime < now then
      (Decision.ADMIT, setKey m key ⟨1, now + cfg.windowMs⟩)
    else if cfg.max ≤ requestData.count then
      (Decision.REJECT, m)
    else
      (Decision.ADMIT, setKey m key ⟨requestData.count + 1, requestData.resetTime⟩)

/-- Fold a sequence of `(key, now)` invocations over the map. -/
def runState (cfg : RateLimiter) (m : RequestMap) : List (String × Int) → RequestMap
  | [] => m
  | (k, t) :: rest => runState cfg (check cfg m k t).2 rest

/-- The decisions produced along a sequence of invocations. -/
def runDecisions (cfg : RateLimiter) (m : RequestMap) : List (String × Int) → List Decision
  | [] => []
  | (k, t) :: rest => (check cfg m k t).1 :: runDecisions cfg (check cfg m k t).2 rest

/-- The timestamps of the invocations for `key` that are admitted along a run. -/
def admittedTimes (cfg : RateLimiter) (m : RequestMap) (key : String) :
    List (String × Int) → List Int
  | [] => []
  | (k, t) :: rest =>
    if k = key ∧ (check cfg m k t).1 = Decision.ADMIT then
      t :: admittedTimes cfg (check cfg m k t).2 key rest
    else
      admittedTimes cfg (check cfg m k t).2 key rest

section StepLemmas

/-- Lookup after `setKey` at the written key. -/
theorem setKey_same (m : RequestMap) (key : String) (c : WindowCounter) :
    setKey m key c key = some c := by
  simp [setKey]

/-- Lookup after `setKey` at a different key. -/
theorem setKey_other (m : RequestMap) (key k : String) (c : WindowCounter)
    (h : k ≠ key) : setKey m key c k = m k := by
  simp [setKey, h]

/-- Branch 1 of the source: unknown key is admitted with a fresh counter. -/
theorem check_none (cfg : RateLimiter) (m : RequestMap) (key : String) (now : Int)
    (h : m key = none) :
    check cfg m key now = (Decision.ADMIT, setKey m key ⟨1, now + cfg.windowMs⟩) := by
  simp [check, h]

/-- Branch 2 of the source: expired window (`now > resetTime`) is admitted
with a fresh counter, regardless of the stored count. -/
theorem check_reset (cfg : RateLimiter) (m : RequestMap) (key : String) (now : Int)
    (c : Nat) (r : Int) (h : m key = some ⟨c, r⟩) (hlt : r < now) :
    check cfg m key now = (Decision.ADMIT, setKey m key ⟨1, now + cfg.windowMs⟩) := by
  simp [check, h, hlt]

/-- Branch 3 of the source: in-window and at quota is rejected, map untouched. -/
theorem check_reject (cfg : RateLimiter) (m : RequestMap) (key : String) (now : Int)
    (c : Nat) (r : Int) (h : m key = some ⟨c, r⟩) (hle : ¬ r < now)
    (hc : cfg.max ≤ c) :
    check cfg m key now = (Decision.REJECT, m) := by
  simp [check, h, hle, hc]

/-- Branch 4 of the source: in-window and under quota increments the count. -/
theorem check_incr (cfg : RateLimiter) (m : RequestMap) (key : String) (now : Int)
    (c : Nat) (r : Int) (h : m key = some ⟨c, r⟩) (hle : ¬ r < now)
    (hc : ¬ cfg.max ≤ c) :
    check cfg m key now = (Decision.ADMIT, setKey m key ⟨c + 1, r⟩) := by
  simp [check, h, hle, hc]

/-- A `check` for one key never touches another key's entry. -/
theorem check_frame (cfg : RateLimiter) (m : RequestMap) (key k : String) (now : Int)
    (h : k ≠ key) : (check cfg m key now).2 k = m k := by
  unfold check
  cases hm : m key with
  | none => simp [setKey, h]
  | some rd =>
    by_cases h1 : rd.resetTime < now
    · simp [h1, setKey, h]
    · by_cases h2 : cfg.max ≤ rd.count
      · simp [h1, h2]
      · simp [h1, h2, setKey, h]

/-- The decision of a `check` depends only on the checked key's entry. -/
theorem check_decision_local (cfg : RateLimiter) (m₁ m₂ : RequestMap) (key : String)
    (now : Int) (h : m₁ key = m₂ key) :
    (check cfg m₁ key now).1 = (check cfg m₂ key now).1 := by
  unfold check
  rw [h]
  cases m₂ key with
  | none => rfl
  | some rd =>
    by_cases h1 : rd.resetTime < now
    · simp [h1]
    · by_cases h2 : cfg.max ≤ rd.count
      · simp [h1, h2]
      · simp [h1, h2]

/-- The checked key's entry after a `check` depends only on its entry before. -/
theorem check_state_local (cfg : RateLimiter) (m₁ m₂ : RequestMap) (key : String)
    (now : Int) (h : m₁ key = m₂ key) :
    (check cfg m₁ key now).2 key = (check cfg m₂ key now).2 key := by
  unfold check
  rw [h]
  cases m₂ key with
  | none => simp [setKey]
  | some rd =>
    by_cases h1 : rd.resetTime < now
    · simp [h1, setKey]
    · by_cases h2 : cfg.max ≤ rd.count
      · simp [h1, h2, h]
      · simp [h1, h2, setKey]

end StepLemmas

section RunLemmas

/-- A run of invocations for one key never touches another key's entry. -/
theorem runState_frame (cfg : RateLimiter) (key k : String) (h : k ≠ key)
    (ts : List Int) (m : RequestMap) :
    runState cfg m (ts.map (fun t => (key, t))) k = m k := by
  induction ts generalizing m with
  | nil => rfl
  | cons t rest ih =>
    simp only [List.map_cons, runState]
    rw [ih, check_frame cfg m key k t h]

/-- A run containing no invocation for `k` leaves `k`'s entry unchanged. -/
theorem runState_frame_calls (cfg : RateLimiter) (k : String)
    (calls : List (String × Int)) (h : ∀ p ∈ calls, p.1 ≠ k) (m : RequestMap) :
    runState cfg m calls k = m k := by
  induction calls generalizing m with
  | nil => rfl
  | cons p rest ih =>
    obtain ⟨k', t⟩ := p
    simp only [runState]
    rw [ih (fun q hq => h q (List.mem_cons_of_mem _ hq)) _]
    exact check_frame cfg m k' k t (h ⟨k', t⟩ (List.mem_cons_self _ _)).symm

/-- While a key stays in its window with spare quota, every invocation for it
is admitted and the count advances by one per call, `resetTime` unchanged. -/
theorem admitRun (cfg : RateLimiter) (key : String) (ts : List Int)
    (m : RequestMap) (c : Nat) (r : Int) (hm : m key = some ⟨c, r⟩)
    (hbudget : c + ts.length ≤ cfg.max) (hts : ∀ t ∈ ts, ¬ r < t) :
    runDecisions cfg m (ts.map (fun t => (key, t))) =
      List.replicate ts.length Decision.ADMIT ∧
    runState cfg m (ts.map (fun t => (key, t))) key = some ⟨c + ts.length, r⟩ := by
  induction ts generalizing m c with
  | nil => simpa [runDecisions, runState] using hm
  | cons t rest ih =>
    have hle : ¬ r < t := hts t (List.mem_cons_self _ _)
    have hc : ¬ cfg.max ≤ c := by
      simp only [List.length_cons] at hbudget
      omega
    have hstep := check_incr cfg m key t c r hm hle hc
    have hm' : (setKey m key ⟨c + 1, r⟩) key = some ⟨c + 1, r⟩ := setKey_same _ _ _
    have hbudget' : (c + 1) + rest.length ≤ cfg.max := by
      simp only [List.length_cons] at hbudget
      omega
    have hts' : ∀ u ∈ rest, ¬ r < u := fun u hu => hts u (List.mem_cons_of_mem _ hu)
    obtain ⟨hd, hs⟩ := ih (setKey m key ⟨c + 1, r⟩) (c + 1) hm' hbudget' hts'
    constructor
    · simp only [List.map_cons, runDecisions, hstep, List.length_cons,
        List.replicate_succ]
      simp [hd]
    · simp only [List.map_cons, runState, hstep]
      rw [hs]
      simp only [List.length_cons]
      have hcc : c + 1 + rest.length = c + (rest.length + 1) := by omega
      rw [hcc]

end RunLemmas

section Burst

/-- Decidable membership of a timestamp in the closed interval
`[a, a + W]` of length `W`. -/
def inWindowOf (a W t : Int) : Bool := decide (a ≤ t ∧ t ≤ a + W)

/-- Structure of the admitted-timestamp list of one key along a
monotone run: a first group of at most `max` admissions all within `W` of
the group's opening admission, followed by later groups that start strictly
after the first group's window expires. -/
inductive Grouped (W : Int) (max : Nat) : List Int → Prop where
  | nil : Grouped W max []
  | cons (t₀ : Int) (g rest : List Int)
      (hlen : g.length + 1 ≤ max)
      (hg : ∀ t ∈ g, t₀ ≤ t ∧ t ≤ t₀ + W)
      (hrest : ∀ t ∈ rest, t₀ + W < t)
      (htail : Grouped W max rest) :
      Grouped W max (t₀ :: (g ++ rest))

/-- An interval that starts at or before every element of a grouped list
meets only the first group, hence at most `max` admissions. -/
theorem Grouped.count_le_max {W : Int} {max : Nat} {A : List Int}
    (hA : Grouped W max A) (a : Int) (ha : ∀ t ∈ A, a ≤ t) :
    A.countP (inWindowOf a W) ≤ max := by
  cases hA with
  | nil => simp
  | cons t₀ g rest hlen hg hrest htail =>
    have ht₀ : a ≤ t₀ := ha t₀ (List.mem_cons_self _ _)
    have hrest0 : rest.countP (inWindowOf a W) = 0 := by
      rw [List.countP_eq_zero]
      intro t ht
      have h1 : t₀ + W < t := hrest t ht
      simp only [inWindowOf, decide_eq_true_eq, not_and, not_le]
      intro _
      omega
    have hgle : g.countP (inWindowOf a W) ≤ g.length := List.countP_le_length _
    calc (t₀ :: (g ++ rest)).countP (inWindowOf a W)
        ≤ 1 + (g.countP (inWindowOf a W) + rest.countP (inWindowOf a W)) := by
          simp only [List.countP_cons, List.countP_append]
          split <;> omega
      _ ≤ 1 + (g.length + 0) := by omega
      _ ≤ max := by omega

/-- Any closed interval of length `W` meets at most two consecutive groups,
and when it meets the second it must have started strictly after the first
group's opening admission: at most `2 * max - 1` admissions. -/
theorem Grouped.count_le_seam {W : Int} {max : Nat} {A : List Int}
    (hA : Grouped W max A) (hmax : 1 ≤ max) (a : Int) :
    A.countP (inWindowOf a W) ≤ 2 * max - 1 := by
  induction hA with
  | nil => simp
  | cons t₀ g rest hlen hg hrest htail ih =>
    have hgle : g.countP (inWindowOf a W) ≤ g.length := List.countP_le_length _
    by_cases hcase : a ≤ t₀
    · -- The interval ends by `t₀ + W`, before any later group begins.
      have hrest0 : rest.countP (inWindowOf a W) = 0 := by
        rw [List.countP_eq_zero]
        intro t ht
        have h1 : t₀ + W < t := hrest t ht
        simp only [inWindowOf, decide_eq_true_eq, not_and, not_le]
        intro _
        omega
      calc (t₀ :: (g ++ rest)).countP (inWindowOf a W)
          ≤ 1 + (g.countP (inWindowOf a W) + rest.countP (inWindowOf a W)) := by
            simp only [List.countP_cons, List.countP_append]
            split <;> omega
        _ ≤ 1 + (g.length + 0) := by omega
        _ ≤ 2 * max - 1 := by omega
    · -- The interval starts after `t₀`, so the opening admission is missed.
      push_neg at hcase
      have ht₀0 : inWindowOf a W t₀ = false := by
        simp only [inWindowOf, decide_eq_false_iff_not, not_and, not_le]
        intro h1
        omega
      by_cases hcase2 : a ≤ t₀ + W
      · -- Straddling: tail of first group plus at most one full later group.
        have hrestmax : rest.countP (inWindowOf a W) ≤ max :=
          htail.count_le_max a (fun t ht => le_of_lt (lt_of_le_of_lt hcase2 (hrest t ht)))
        calc (t₀ :: (g ++ rest)).countP (inWindowOf a W)
            = g.countP (inWindowOf a W) + rest.countP (inWindowOf a W) := by
              simp [List.countP_cons, List.countP_append, ht₀0]
          _ ≤ (g.length) + max := by omega
          _ ≤ 2 * max - 1 := by omega
      · -- The interval starts after the first window entirely.
        push_neg at hcase2
        have hg0 : g.countP (inWindowOf a W) = 0 := by
          rw [List.countP_eq_zero]
          intro t ht
          have h2 : t ≤ t₀ + W := (hg t ht).2
          simp only [inWindowOf, decide_eq_true_eq, not_and, not_le]
          intro h1
          omega
        calc (t₀ :: (g ++ rest)).countP (inWindowOf a W)
            = rest.countP (inWindowOf a W) := by
              simp [List.countP_cons, List.countP_append, ht₀0, hg0]
          _ ≤ 2 * max - 1 := ih

end Burst

section RunDecomposition

/-- Unfolding `admittedTimes` at an admitted invocation for the tracked key. -/
theorem admittedTimes_cons_admitted (cfg : RateLimiter) (key : String) (t : Int)
    (calls : List (String × Int)) (m : RequestMap)
    (h : (check cfg m key t).1 = Decision.ADMIT) :
    admittedTimes cfg m key ((key, t) :: calls) =
      t :: admittedTimes cfg (check cfg m key t).2 key calls := by
  simp [admittedTimes, h]

/-- Unfolding `admittedTimes` at a rejected invocation for the tracked key. -/
theorem admittedTimes_cons_reject (cfg : RateLimiter) (key : String) (t : Int)
    (calls : List (String × Int)) (m : RequestMap)
    (h : (check cfg m key t).1 = Decision.REJECT) :
    admittedTimes cfg m key ((key, t) :: calls) =
      admittedTimes cfg (check cfg m key t).2 key calls := by
  simp [admittedTimes, h]

/-- Unfolding `admittedTimes` at an invocation for a different key. -/
theorem admittedTimes_cons_other (cfg : RateLimiter) (key k : String) (t : Int)
    (calls : List (String × Int)) (m : RequestMap) (h : k ≠ key) :
    admittedTimes cfg m key ((k, t) :: calls) =
      admittedTimes cfg (check cfg m k t).2 key calls := by
  simp [admittedTimes, h]

/-- Every admitted timestamp is the timestamp of some invocation of the run. -/
theorem admittedTimes_mem (cfg : RateLimiter) (key : String) :
    ∀ (calls : List (String × Int)) (m : RequestMap) (x : Int),
    x ∈ admittedTimes cfg m key calls → x ∈ calls.map Prod.snd := by
  intro calls
  induction calls with
  | nil => intro m x hx; simp [admittedTimes] at hx
  | cons p rest ih =>
    intro m x hx
    obtain ⟨k, t⟩ := p
    simp only [admittedTimes] at hx
    split at hx
    · rcases List.mem_cons.mp hx with h | h
      · simp [h]
      · exact List.mem_cons_of_mem _ (ih _ x h)
    · exact List.mem_cons_of_mem _ (ih _ x hx)

/-- Decomposition of a monotone run started at an existing counter
`⟨c, r⟩`: its admissions split into a remainder of the current window
(at most `max - c` of them, all at times `≤ r`) followed by a grouped
tail whose admissions all occur strictly after `r`. -/
theorem admittedRunSome (cfg : RateLimiter) (key : String) (hmax : 1 ≤ cfg.max) :
    ∀ (calls : List (String × Int)) (m : RequestMap) (c : Nat) (r : Int),
    List.Pairwise (fun p q : String × Int => p.2 ≤ q.2) calls →
    m key = some ⟨c, r⟩ → c ≤ cfg.max →
    ∃ g rest, admittedTimes cfg m key calls = g ++ rest ∧
      g.length + c ≤ cfg.max ∧ (∀ t ∈ g, t ≤ r) ∧ (∀ t ∈ rest, r < t) ∧
      Grouped cfg.windowMs cfg.max rest := by
  intro calls
  induction calls with
  | nil =>
    intro m c r _ _ hc
    exact ⟨[], [], by simp [admittedTimes], by simpa using hc, by simp, by simp,
      Grouped.nil⟩
  | cons p calls' ih =>
    intro m c r hpw hm hc
    obtain ⟨k, t⟩ := p
    obtain ⟨hhead, htail⟩ := List.pairwise_cons.mp hpw
    by_cases hk : k = key
    · subst hk
      by_cases hreset : r < t
      · -- window expired: admitted, fresh counter starts a new group
        have hstep := check_reset cfg m k t c r hm hreset
        have hdec : (check cfg m k t).1 = Decision.ADMIT := by rw [hstep]
        have hm' : (check cfg m k t).2 k = some ⟨1, t + cfg.windowMs⟩ := by
          rw [hstep]; exact setKey_same _ _ _
        obtain ⟨g', rest', heq, hlen, hgle, hrest, hgrp⟩ :=
          ih (check cfg m k t).2 1 (t + cfg.windowMs) htail hm' hmax
        have hmono : ∀ u ∈ admittedTimes cfg (check cfg m k t).2 k calls', t ≤ u := by
          intro u hu
          obtain ⟨q, hq, hqu⟩ := List.mem_map.mp (admittedTimes_mem cfg k calls' _ u hu)
          exact hqu ▸ hhead q hq
        refine ⟨[], t :: (g' ++ rest'), ?_, by simpa using hc, by simp, ?_, ?_⟩
        · rw [admittedTimes_cons_admitted cfg k t calls' m hdec, heq]; rfl
        · intro u hu
          rcases List.mem_cons.mp hu with h | h
          · exact h ▸ hreset
          · exact lt_of_lt_of_le hreset (hmono u (heq ▸ h))
        · exact Grouped.cons t g' rest' (by omega)
            (fun u hu => ⟨hmono u (heq ▸ List.mem_append_left _ hu), hgle u hu⟩)
            hrest hgrp
      · by_cases hquota : cfg.max ≤ c
        · -- at quota inside the window: rejected, state unchanged
          have hstep := check_reject cfg m k t c r hm hreset hquota
          have hdec : (check cfg m k t).1 = Decision.REJECT := by rw [hstep]
          have hm' : (check cfg m k t).2 k = some ⟨c, r⟩ := by rw [hstep]; exact hm
          obtain ⟨g', rest', heq, hlen, hgle, hrest, hgrp⟩ :=
            ih (check cfg m k t).2 c r htail hm' hc
          exact ⟨g', rest', by
            rw [admittedTimes_cons_reject cfg k t calls' m hdec]; exact heq,
            hlen, hgle, hrest, hgrp⟩
        · -- under quota inside the window: admitted, count incremented
          have hstep := check_incr cfg m k t c r hm hreset hquota
          have hdec : (check cfg m k t).1 = Decision.ADMIT := by rw [hstep]
          have hm' : (check cfg m k t).2 k = some ⟨c + 1, r⟩ := by
            rw [hstep]; exact setKey_same _ _ _
          obtain ⟨g', rest', heq, hlen, hgle, hrest, hgrp⟩ :=
            ih (check cfg m k t).2 (c + 1) r htail hm' (by omega)
          refine ⟨t :: g', rest', ?_, by simpa using by omega, ?_, hrest, hgrp⟩
          · rw [admittedTimes_cons_admitted cfg k t calls' m hdec, heq]; rfl
          · intro u hu
            rcases List.mem_cons.mp hu with h | h
            · omega
            · exact hgle u h
    · -- invocation for a different key: the tracked key's entry is untouched
      have hm' : (check cfg m k t).2 key = some ⟨c, r⟩ := by
        rw [check_frame cfg m k key t (Ne.symm hk)]; exact hm
      obtain ⟨g', rest', heq, hlen, hgle, hrest, hgrp⟩ :=
        ih (check cfg m k t).2 c r htail hm' hc
      exact ⟨g', rest', by
        rw [admittedTimes_cons_other cfg key k t calls' m hk]; exact heq,
        hlen, hgle, hrest, hgrp⟩

/-- The admitted timestamps of any monotone run starting with no counter for
the key form a grouped list. -/
theorem admittedRunNone (cfg : RateLimiter) (key : String) (hmax : 1 ≤ cfg.max) :
    ∀ (calls : List (String × Int)) (m : RequestMap),
    List.Pairwise (fun p q : String × Int => p.2 ≤ q.2) calls →
    m key = none →
    Grouped cfg.windowMs cfg.max (admittedTimes cfg m key calls) := by
  intro calls
  induction calls with
  | nil => intro m _ _; exact (by simp [admittedTimes] : admittedTimes cfg m key [] = []) ▸ Grouped.nil
  | cons p calls' ih =>
    intro m hpw hm
    obtain ⟨k, t⟩ := p
    obtain ⟨hhead, htail⟩ := List.pairwise_cons.mp hpw
    by_cases hk : k = key
    · subst hk
      have hstep := check_none cfg m k t hm
      have hdec : (check cfg m k t).1 = Decision.ADMIT := by rw [hstep]
      have hm' : (check cfg m k t).2 k = some ⟨1, t + cfg.windowMs⟩ := by
        rw [hstep]; exact setKey_same _ _ _
      obtain ⟨g', rest', heq, hlen, hgle, hrest, hgrp⟩ :=
        admittedRunSome cfg k hmax calls' (check cfg m k t).2 1 (t + cfg.windowMs)
          htail hm' hmax
      have hmono : ∀ u ∈ admittedTimes cfg (check cfg m k t).2 k calls', t ≤ u := by
        intro u hu
        obtain ⟨q, hq, hqu⟩ := List.mem_map.mp (admittedTimes_mem cfg k calls' _ u hu)
        exact hqu ▸ hhead q hq
      rw [admittedTimes_cons_admitted cfg k t calls' m hdec, heq]
      exact Grouped.cons t g' rest' (by omega)
        (fun u hu => ⟨hmono u (heq ▸ List.mem_append_left _ hu), hgle u hu⟩)
        hrest hgrp
    · have hm' : (check cfg m k t).2 key = none := by
        rw [check_frame cfg m k key t (Ne.symm hk)]; exact hm
      rw [admittedTimes_cons_other cfg key k t calls' m hk]
      exact ih (check cfg m k t).2 htail hm'

end RunDecomposition

section Invariant

/-- Every stored counter has `1 <= count <= max`. -/
def countInvariant (cfg : RateLimiter) (m : RequestMap) : Prop :=
  ∀ (k : String) (c : Nat) (r : Int), m k = some ⟨c, r⟩ → 1 ≤ c ∧ c ≤ cfg.max

/-- The empty map satisfies the counter invariant. -/
theorem countInvariant_empty (cfg : RateLimiter) : countInvariant cfg emptyRequests := by
  intro k c r hk
  simp [emptyRequests] at hk

/-- One `check` preserves the counter invariant. -/
theorem countInvariant_check (cfg : RateLimiter) (hmax : 1 ≤ cfg.max)
    (m : RequestMap) (hm : countInvariant cfg m) (key : String) (now : Int) :
    countInvariant cfg (check cfg m key now).2 := by
  intro k c r hk
  by_cases hkey : k = key
  · subst hkey
    cases hmk : m k with
    | none =>
      rw [check_none cfg m k now hmk] at hk
      simp [setKey] at hk
      omega
    | some rd =>
      obtain ⟨cnt, rt⟩ := rd
      by_cases h1 : rt < now
      · rw [check_reset cfg m k now cnt rt hmk h1] at hk
        simp [setKey] at hk
        omega
      · by_cases h2 : cfg.max ≤ cnt
        · rw [check_reject cfg m k now cnt rt hmk h1 h2] at hk
          exact hm k c r hk
        · rw [check_incr cfg m k now cnt rt hmk h1 h2] at hk
          simp [setKey] at hk
          have := hm k cnt rt hmk
          omega
  · rw [check_frame cfg m key k now hkey] at hk
    exact hm k c r hk

/-- A whole run preserves the counter invariant. -/
theorem countInvariant_runState (cfg : RateLimiter) (hmax : 1 ≤ cfg.max) :
    ∀ (calls : List (String × Int)) (m : RequestMap), countInvariant cfg m →
    countInvariant cfg (runState cfg m calls) := by
  intro calls
  induction calls with
  | nil => intro m hm; exact hm
  | cons p rest ih =>
    intro m hm
    obtain ⟨k, t⟩ := p
    exact ih _ (countInvariant_check cfg hmax m hm k t)

end Invariant

section Claims

/-- State of the spec's concrete scenario (`windowDurationMs = 1000`,
`maxCount = 2`) after `check("A", 0)`, `check("A", 100)`, `check("A", 200)`. -/
def scenarioState : RequestMap :=
  runState ⟨1000, 2⟩ emptyRequests [("A", 0), ("A", 100), ("A", 200)]

/-- C1 counterexample: in the concrete scenario the call `check("A", 1000)`
arrives exactly at the counter's `resetAt` (= 1000) and returns REJECT, not
ADMIT as the claim states: the source resets only on the strict comparison
`now > resetTime`, so `nowMs = resetAt` is still inside the old window. -/
theorem C1_counterexample :
    (check ⟨1000, 2⟩ scenarioState "A" 1000).1 = Decision.REJECT := by decide

/-- C1 (amended): for every key that already has a WindowCounter, a call
`check(key, nowMs)` with `nowMs` strictly greater than the counter's
`resetAt` returns ADMIT and replaces the counter with a fresh one having
`count = 1` and `resetAt = nowMs + windowDurationMs`; a call at
`nowMs = resetAt` is still inside the old window.  In the concrete scenario
(`windowDurationMs = 1000`, `maxCount = 2`, calls at 0, 100, 200),
`check("A", 1000)` returns REJECT, and `check("A", 1001)` returns ADMIT
with `count = 1` and `resetAt = 2001`. -/
theorem C1_reset_after_boundary :
    (∀ (cfg : RateLimiter) (m : RequestMap) (key : String) (now : Int)
        (c : Nat) (r : Int), m key = some ⟨c, r⟩ → r < now →
        check cfg m key now = (Decision.ADMIT, setKey m key ⟨1, now + cfg.windowMs⟩)) ∧
    (check ⟨1000, 2⟩ scenarioState "A" 1000).1 = Decision.REJECT ∧
    (check ⟨1000, 2⟩ scenarioState "A" 1001).1 = Decision.ADMIT ∧
    (check ⟨1000, 2⟩ scenarioState "A" 1001).2 "A" = some ⟨1, 2001⟩ :=
  ⟨fun cfg m key now c r hm hr => check_reset cfg m key now c r hm hr,
   by decide, by decide, by decide⟩

/-- C1 witness: the amended reset rule applied at a concrete expired counter. -/
theorem C1_witness :
    check ⟨1000, 2⟩ (setKey emptyRequests "B" ⟨2, 500⟩) "B" 501 =
      (Decision.ADMIT, setKey (setKey emptyRequests "B" ⟨2, 500⟩) "B" ⟨1, 501 + 1000⟩) :=
  C1_reset_after_boundary.1 ⟨1000, 2⟩ (setKey emptyRequests "B" ⟨2, 500⟩) "B" 501 2 500
    (setKey_same _ _ _) (by decide)

/-- C2: from a state with no counter for the key, a sequence of `maxCount`
calls with non-decreasing timestamps, every one strictly below
`t₁ + windowDurationMs` (the window's `resetAt`), is admitted in full. -/
theorem C2_full_window_admitted :
    ∀ (cfg : RateLimiter), 0 < cfg.windowMs → 1 ≤ cfg.max →
    ∀ (key : String) (m : RequestMap), m key = none →
    ∀ (t₁ : Int) (rest : List Int),
    (t₁ :: rest).length = cfg.max →
    List.Chain' (· ≤ ·) (t₁ :: rest) →
    (∀ t ∈ t₁ :: rest, t < t₁ + cfg.windowMs) →
    runDecisions cfg m ((t₁ :: rest).map (fun t => (key, t))) =
      List.replicate cfg.max Decision.ADMIT := by
  intro cfg hW hmax key m hm t₁ rest hlen hchain hbound
  have hstep := check_none cfg m key t₁ hm
  have hm' : (check cfg m key t₁).2 key = some ⟨1, t₁ + cfg.windowMs⟩ := by
    rw [hstep]; exact setKey_same _ _ _
  have hbudget : 1 + rest.length ≤ cfg.max := by
    simp only [List.length_cons] at hlen; omega
  have hts : ∀ t ∈ rest, ¬ t₁ + cfg.windowMs < t := by
    intro t ht
    have := hbound t (List.mem_cons_of_mem _ ht)
    omega
  obtain ⟨hd, _⟩ :=
    admitRun cfg key rest (check cfg m key t₁).2 1 (t₁ + cfg.windowMs) hm' hbudget hts
  rw [hstep] at hd
  simp only [List.map_cons, runDecisions, hstep]
  rw [hd, ← hlen]
  simp [List.replicate_succ]

/-- C2 witness: both calls admitted for `windowMs = 1000`, `max = 2`. -/
theorem C2_witness :
    runDecisions ⟨1000, 2⟩ emptyRequests
        (([0, 100] : List Int).map (fun t => (("A" : String), t))) =
      List.replicate 2 Decision.ADMIT :=
  C2_full_window_admitted ⟨1000, 2⟩ (by decide) (by decide) "A" emptyRequests rfl 0 [100]
    rfl (by norm_num [List.chain'_cons]) (by decide)

/-- C3: after a fresh key's `maxCount` calls were all admitted within the
current window, one more call with a timestamp still strictly below the
window's `resetAt` returns REJECT. -/
theorem C3_overflow_rejected :
    ∀ (cfg : RateLimiter), 0 < cfg.windowMs → 1 ≤ cfg.max →
    ∀ (key : String) (m : RequestMap), m key = none →
    ∀ (t₁ : Int) (rest : List Int),
    (t₁ :: rest).length = cfg.max →
    (∀ t ∈ t₁ :: rest, t < t₁ + cfg.windowMs) →
    ∀ t : Int, t < t₁ + cfg.windowMs →
    (check cfg (runState cfg m ((t₁ :: rest).map (fun u => (key, u)))) key t).1 =
      Decision.REJECT := by
  intro cfg hW hmax key m hm t₁ rest hlen hbound t ht
  have hstep := check_none cfg m key t₁ hm
  have hm' : (check cfg m key t₁).2 key = some ⟨1, t₁ + cfg.windowMs⟩ := by
    rw [hstep]; exact setKey_same _ _ _
  have hbudget : 1 + rest.length ≤ cfg.max := by
    simp only [List.length_cons] at hlen; omega
  have hts : ∀ u ∈ rest, ¬ t₁ + cfg.windowMs < u := by
    intro u hu
    have := hbound u (List.mem_cons_of_mem _ hu)
    omega
  obtain ⟨_, hs⟩ :=
    admitRun cfg key rest (check cfg m key t₁).2 1 (t₁ + cfg.windowMs) hm' hbudget hts
  have hfinal : runState cfg m ((t₁ :: rest).map (fun u => (key, u))) key
      = some ⟨1 + rest.length, t₁ + cfg.windowMs⟩ := by
    simp only [List.map_cons, runState]
    exact hs
  have hcnt : cfg.max ≤ 1 + rest.length := by
    simp only [List.length_cons] at hlen; omega
  rw [check_reject cfg _ key t (1 + rest.length) (t₁ + cfg.windowMs) hfinal
    (by omega) hcnt]

/-- C3 witness: the third call in the window is rejected for `max = 2`. -/
theorem C3_witness :
    (check ⟨1000, 2⟩ (runState ⟨1000, 2⟩ emptyRequests
        (([0, 100] : List Int).map (fun u => (("A" : String), u)))) "A" 200).1 =
      Decision.REJECT :=
  C3_overflow_rejected ⟨1000, 2⟩ (by decide) (by decide) "A" emptyRequests rfl 0 [100]
    rfl (by decide) 200 (by decide)

/-- C4: a rejecting `check` returns the key-to-counter map unchanged, as a
whole: the rejected key's entry and every other key's entry are untouched. -/
theorem C4_reject_leaves_map :
    ∀ (cfg : RateLimiter) (m : RequestMap) (key : String) (now : Int),
    (check cfg m key now).1 = Decision.REJECT → (check cfg m key now).2 = m := by
  intro cfg m key now
  unfold check
  cases hm : m key with
  | none => intro hd; simp at hd
  | some rd =>
    by_cases h1 : rd.resetTime < now
    · simp [h1]
    · by_cases h2 : cfg.max ≤ rd.count
      · simp [h1, h2]
      · simp [h1, h2]

/-- C4 witness: a concrete rejection leaves the concrete map untouched. -/
theorem C4_witness :
    (check ⟨1000, 1⟩ (setKey emptyRequests "A" ⟨1, 1000⟩) "A" 500).2 =
      setKey emptyRequests "A" ⟨1, 1000⟩ :=
  C4_reject_leaves_map ⟨1000, 1⟩ (setKey emptyRequests "A" ⟨1, 1000⟩) "A" 500 (by decide)

/-- C5: a key with no counter is admitted on first `check`, which creates
`count = 1`, `resetAt = nowMs + windowDurationMs`; and a key never checked
has no counter: any run whose invocations all target other keys leaves the
key without a counter. -/
theorem C5_lazy_creation :
    (∀ (cfg : RateLimiter) (m : RequestMap) (key : String) (now : Int),
      m key = none →
      (check cfg m key now).1 = Decision.ADMIT ∧
      (check cfg m key now).2 key = some ⟨1, now + cfg.windowMs⟩) ∧
    (∀ (cfg : RateLimiter) (key : String) (calls : List (String × Int)),
      (∀ p ∈ calls, p.1 ≠ key) →
      runState cfg emptyRequests calls key = none) := by
  constructor
  · intro cfg m key now hm
    rw [check_none cfg m key now hm]
    exact ⟨rfl, setKey_same _ _ _⟩
  · intro cfg key calls hcalls
    rw [runState_frame_calls cfg key calls hcalls emptyRequests]
    rfl

/-- C5 witness: concrete first call creates the counter; a run touching only
key B leaves key A counterless. -/
theorem C5_witness :
    ((check ⟨1000, 2⟩ emptyRequests "A" 7).1 = Decision.ADMIT ∧
      (check ⟨1000, 2⟩ emptyRequests "A" 7).2 "A" = some ⟨1, 7 + 1000⟩) ∧
    runState ⟨1000, 2⟩ emptyRequests [("B", 5)] "A" = none :=
  ⟨C5_lazy_creation.1 ⟨1000, 2⟩ emptyRequests "A" 7 rfl,
   C5_lazy_creation.2 ⟨1000, 2⟩ "A" [("B", 5)] (by decide)⟩

/-- C6: distinct keys are independent: a `check` (or a whole run of checks)
for one key never modifies the other key's counter, and the decision for a
key depends only on that key's own entry, hence not on the other key's
history. -/
theorem C6_key_independence :
    ∀ (cfg : RateLimiter) (k₁ k₂ : String), k₁ ≠ k₂ →
    (∀ (m : RequestMap) (t : Int), (check cfg m k₁ t).2 k₂ = m k₂) ∧
    (∀ (m : RequestMap) (ts : List Int),
      runState cfg m (ts.map (fun t => (k₁, t))) k₂ = m k₂) ∧
    (∀ (m₁ m₂ : RequestMap) (t : Int), m₁ k₂ = m₂ k₂ →
      (check cfg m₁ k₂ t).1 = (check cfg m₂ k₂ t).1) := by
  intro cfg k₁ k₂ hne
  exact ⟨fun m t => check_frame cfg m k₁ k₂ t (Ne.symm hne),
    fun m ts => runState_frame cfg k₁ k₂ (Ne.symm hne) ts m,
    fun m₁ m₂ t h => check_decision_local cfg m₁ m₂ k₂ t h⟩

/-- C6 witness: checks for key A leave key B's (absent) entry unchanged. -/
theorem C6_witness :
    (check ⟨1000, 1⟩ emptyRequests "A" 0).2 "B" = emptyRequests "B" ∧
    runState ⟨1000, 1⟩ emptyRequests
        (([0, 5] : List Int).map (fun t => (("A" : String), t))) "B" =
      emptyRequests "B" :=
  ⟨(C6_key_independence ⟨1000, 1⟩ "A" "B" (by decide)).1 emptyRequests 0,
   (C6_key_independence ⟨1000, 1⟩ "A" "B" (by decide)).2.1 emptyRequests [0, 5]⟩

/-- C7 counterexample: no monotone call sequence from the initial state ever
puts `2 * maxCount` (here 4, with `windowDurationMs = 1000`, `maxCount = 2`)
admissions of one key inside one closed interval of length
`windowDurationMs`: the strict `now > resetTime` comparison separates the
opening admission of a window from every admission of the next window by
more than the window length, capping any such interval at `2 * maxCount - 1`.
So the claimed sequence achieving exactly `2 * maxCount` does not exist. -/
theorem C7_counterexample :
    ¬ ∃ (key : String) (calls : List (String × Int)) (a : Int),
      List.Pairwise (fun p q : String × Int => p.2 ≤ q.2) calls ∧
      (admittedTimes ⟨1000, 2⟩ emptyRequests key calls).countP
        (inWindowOf a 1000) = 2 * 2 := by
  rintro ⟨key, calls, a, hpw, hcount⟩
  have hgrp := admittedRunNone ⟨1000, 2⟩ key (by decide) calls emptyRequests hpw rfl
  have hb : (admittedTimes ⟨1000, 2⟩ emptyRequests key calls).countP
      (inWindowOf a 1000) ≤ 2 * 2 - 1 :=
    Grouped.count_le_seam hgrp (by decide) a
  omega

/-- C7 (amended): for every key and every sequence of check calls with
non-decreasing timestamps, every closed time interval of length
`windowDurationMs` contains at most `2 * maxCount - 1` admitted requests for
that key (hence at most `2 * maxCount`), and there exists a sequence for
which an interval straddling a window boundary contains exactly
`2 * maxCount - 1` admitted requests. -/
theorem C7_seam_bound :
    (∀ (cfg : RateLimiter), 0 < cfg.windowMs → 1 ≤ cfg.max →
      ∀ (key : String) (calls : List (String × Int)),
      List.Pairwise (fun p q : String × Int => p.2 ≤ q.2) calls →
      ∀ a : Int,
      (admittedTimes cfg emptyRequests key calls).countP (inWindowOf a cfg.windowMs)
        ≤ 2 * cfg.max - 1) ∧
    ((admittedTimes ⟨1000, 2⟩ emptyRequests "A"
        [("A", 0), ("A", 1000), ("A", 1001), ("A", 1001)]).countP
        (inWindowOf 1 1000) = 2 * 2 - 1) := by
  constructor
  · intro cfg hW hmax key calls hpw a
    exact Grouped.count_le_seam
      (admittedRunNone cfg key hmax calls emptyRequests hpw rfl) hmax a
  · decide

/-- C7 witness: the seam bound applied to a concrete one-call run. -/
theorem C7_witness :
    (admittedTimes ⟨1000, 2⟩ emptyRequests "A" [("A", 0)]).countP
      (inWindowOf 0 1000) ≤ 2 * 2 - 1 :=
  C7_seam_bound.1 ⟨1000, 2⟩ (by decide) (by decide) "A" [("A", 0)] (by simp) 0

/-- C8: `check` is not idempotent: every admitting call changes the map
(creation, reset, or increment), and there is a concrete state and
`(key, nowMs)` for which two consecutive identical calls answer first
ADMIT, then REJECT. -/
theorem C8_not_idempotent :
    (∀ (cfg : RateLimiter), 0 < cfg.windowMs →
      ∀ (m : RequestMap) (key : String) (now : Int),
      (check cfg m key now).1 = Decision.ADMIT → (check cfg m key now).2 ≠ m) ∧
    (∃ (cfg : RateLimiter) (m : RequestMap) (key : String) (now : Int),
      (check cfg m key now).1 = Decision.ADMIT ∧
      (check cfg (check cfg m key now).2 key now).1 = Decision.REJECT) := by
  constructor
  · intro cfg hW m key now hadm hEq
    have hkey : (check cfg m key now).2 key = m key := congrFun hEq key
    cases hmk : m key with
    | none =>
      rw [check_none cfg m key now hmk] at hkey
      have hkey2 : setKey m key ⟨1, now + cfg.windowMs⟩ key = m key := hkey
      rw [setKey_same, hmk] at hkey2
      exact Option.noConfusion hkey2
    | some rd =>
      obtain ⟨cnt, rt⟩ := rd
      by_cases h1 : rt < now
      · rw [check_reset cfg m key now cnt rt hmk h1] at hkey
        have hkey2 : setKey m key ⟨1, now + cfg.windowMs⟩ key = m key := hkey
        rw [setKey_same, hmk] at hkey2
        obtain ⟨h3, h4⟩ : 1 = cnt ∧ now + cfg.windowMs = rt := by simpa using hkey2
        omega
      · by_cases h2 : cfg.max ≤ cnt
        · rw [check_reject cfg m key now cnt rt hmk h1 h2] at hadm
          simp at hadm
        · rw [check_incr cfg m key now cnt rt hmk h1 h2] at hkey
          have hkey2 : setKey m key ⟨cnt + 1, rt⟩ key = m key := hkey
          rw [setKey_same, hmk] at hkey2
          simp only [Option.some.injEq, WindowCounter.mk.injEq] at hkey2
          omega
  · exact ⟨⟨1000, 1⟩, emptyRequests, "A", 0, by decide, by decide⟩

/-- C8 witness: a concrete admitting call changes the map. -/
theorem C8_witness :
    (check ⟨1000, 1⟩ emptyRequests "A" 0).2 ≠ emptyRequests :=
  C8_not_idempotent.1 ⟨1000, 1⟩ (by decide) emptyRequests "A" 0 (by decide)

/-- C9: `check` is a total function: for every configuration, state, key and
timestamp it produces exactly one of the two decisions; REJECT is one of the
two normal outcomes, not an error, and no other outcome exists. -/
theorem C9_always_decides :
    ∀ (cfg : RateLimiter) (m : RequestMap) (key : String) (now : Int),
    (check cfg m key now).1 = Decision.ADMIT ∨
      (check cfg m key now).1 = Decision.REJECT := by
  intro cfg m key now
  cases h : (check cfg m key now).1 with
  | ADMIT => exact Or.inl rfl
  | REJECT => exact Or.inr rfl

/-- C10: with `maxCount >= 1`, in every state reachable from the initial
empty map by any call sequence, every stored counter satisfies
`1 <= count <= maxCount`. -/
theorem C10_count_bounds :
    ∀ (cfg : RateLimiter), 1 ≤ cfg.max →
    ∀ (calls : List (String × Int)) (k : String) (c : Nat) (r : Int),
    runState cfg emptyRequests calls k = some ⟨c, r⟩ →
    1 ≤ c ∧ c ≤ cfg.max := by
  intro cfg hmax calls k c r hk
  exact countInvariant_runState cfg hmax calls emptyRequests
    (countInvariant_empty cfg) k c r hk

/-- C10 witness: the bounds hold for the counter created by one call. -/
theorem C10_witness :
    runState ⟨1000, 2⟩ emptyRequests [("A", 0)] "A" = some ⟨1, 1000⟩ ∧
      (1 ≤ 1 ∧ 1 ≤ 2) :=
  ⟨by decide, C10_count_bounds ⟨1000, 2⟩ (by decide) [("A", 0)] "A" 1 1000 (by decide)⟩

end Claims
